import Mathlib

/-!
Verification of the master-side PageRank control loop of the
distributed-pagerank repository (package `node`, files embedded below as
`masterWait`, `masterCollect`, `masterConvergence`, `masterWriteQueue`,
`masterReadQueue`, `masterSendUpdateToWorkers`).

Modelling conventions:
- Go `float64` values are modelled as exact rationals `ℚ`.
- Go `int32` vertex ids are modelled as `ℤ` (no arithmetic is ever
  performed on ids, only equality).
- Go maps `map[int32]*proto.GraphNode` are modelled as association lists
  `List (Int × GraphNode)`; a Go `range` over a map iterates in an
  unspecified order, so list-valued statements quantify over the
  iteration order where it matters.
- Effectful collaborators (the broker publish, protobuf marshalling, the
  peer RPC, the configuration prompt, the single-node PageRank routine of
  the `graph` package) are passed as explicit function parameters.
- Code that can crash (nil-map dereference, a send on a channel that can
  never be received) is modelled in `Option`, `none` meaning the
  operation does not complete normally.
-/

/-- A vertex of the PageRank graph (`proto.GraphNode`): current rank,
teleport weight `e`, and the in-link replica map `source id ↦ replicated
rank of the source`. -/
structure GraphNode where
  rank : ℚ
  e : ℚ
  inLinks : List (Int × ℚ)
deriving DecidableEq

/-- The master's graph: association list `id ↦ GraphNode`
(Go `map[int32]*proto.GraphNode`). -/
abbrev Graph := List (Int × GraphNode)

/-- The phase discriminator of the master state machine. -/
inductive Phase
  | Wait
  | Map
  | Collect
  | Reduce
  | Convergence
deriving DecidableEq

/-- The master's state: the `proto.State` fields (`graph`, `c`,
`threshold`, `phase`, `others`) together with the node-local counters
`jobs`, `responses` and the SafeMap accumulator `data`. -/
structure MasterState where
  graph : Graph
  c : ℚ
  threshold : ℚ
  phase : Phase
  others : List String
  jobs : Nat
  responses : Nat
  data : List (Int × ℚ)
deriving DecidableEq

/-- Association-list lookup, the embedding of Go map indexing
`m[id]` (`none` models the absent key, whose dereference as a
`*GraphNode` would be a nil-pointer crash). -/
def mapLookup {α : Type} : List (Int × α) → Int → Option α
  | [], _ => none
  | p :: rest, id => if p.1 = id then some p.2 else mapLookup rest id

/-- Modelled from the spec: `SafeMap.Get(k)` of the `utils` package (the
SafeMap source is not under `src/`); a missing key reads as `0`, as a Go
`map[int32]float64` does. -/
def safeGet (data : List (Int × ℚ)) (id : Int) : ℚ :=
  (mapLookup data id).getD 0

/-- Modelled from the spec: `SafeMap.Increment(k, Δ)` of the `utils`
package (not under `src/`) atomically adds Δ to the entry of `k`,
inserting the entry when absent. -/
def safeIncrement : List (Int × ℚ) → Int → ℚ → List (Int × ℚ)
  | [], id, v => [(id, v)]
  | p :: rest, id, v =>
    if p.1 = id then (p.1, p.2 + v) :: rest else p :: safeIncrement rest id v

/-- Replace the element at position `i` (Go `subGraphs[i] = ...`). -/
def updateNth {α : Type} : List α → Nat → (α → α) → List α
  | [], _, _ => []
  | x :: xs, 0, f => f x :: xs
  | x :: xs, n + 1, f => x :: updateNth xs n f

/-- The round-robin loop of `masterWriteQueue` (src/unnamed/part_000,
lines 276-283): the vertex iterated at index `i` goes into shard `i`,
and the index steps as `i = (i + 1) % k`. -/
def rrLoop (k : Nat) : List (Int × GraphNode) → Nat →
    List (List (Int × GraphNode)) → List (List (Int × GraphNode))
  | [], _, shards => shards
  | x :: xs, i, shards =>
    rrLoop k xs ((i + 1) % k) (updateNth shards i (fun sh => sh ++ [x]))

/-- The partitioner of `masterWriteQueue`: `k` shards, filled round-robin
in the iteration order given by the input list. -/
def partitionRR (k : Nat) (l : List (Int × GraphNode)) :
    List (List (Int × GraphNode)) :=
  rrLoop k l 0 (List.replicate k [])

/-- The job-count computation of `masterWriteQueue`
(src/unnamed/part_000, lines 271-274): `numberOfJobs := len(others); if
numberOfJobs >= len(graph) { numberOfJobs = len(graph) }`. -/
def numberOfJobs (others graphSize : Nat) : Nat :=
  if others ≥ graphSize then graphSize else others

/-- The job-count computation of `masterCollect` and `WriteGraphToQueue`
in src/unnamed/part_001 (lines 67-70 and 147-150): `numberOfJobs :=
len(others); if numberOfJobs >= len(graph) { numberOfJobs = len(graph)
- 1 }` — note the extra `- 1`. -/
def numberOfJobsV1 (others graphSize : Nat) : Nat :=
  if others ≥ graphSize then graphSize - 1 else others

/-- An error surfaced by protobuf marshalling or a broker publish. -/
abbrev PubErr := String

/-- A `proto.Job` message: `type` discriminator (0 = Map, 1 = Reduce),
`mapData` (`id ↦ inLinks` replica map) and `reduceData`
(`id ↦ (sum, e)`); the unused side is empty but present. -/
structure Job where
  type : Nat
  mapData : List (Int × List (Int × ℚ))
  reduceData : List (Int × (ℚ × ℚ))
deriving DecidableEq

/-- The Map-shaped job builder passed by `masterWait` to
`masterWriteQueue` (src/unnamed/part_000, lines 74-85): every vertex of
the subgraph contributes `mapData[id] = {InLinks: v.InLinks}`, and
`reduceData` stays a dummy empty map. -/
def mapJobOf (m : Graph) : Job :=
  { type := 0
    mapData := m.map (fun p => (p.1, p.2.inLinks))
    reduceData := [] }

/-- The Reduce-shaped job builder passed by `masterCollect` to
`masterWriteQueue` (src/unnamed/part_000, lines 130-144): every vertex
of the subgraph contributes `reduceData[id] = {Sum: data[id], E: v.E}`
where `data` is the SafeMap snapshot, and `mapData` stays a dummy empty
map. -/
def reduceJobOf (data : List (Int × ℚ)) (m : Graph) : Job :=
  { type := 1
    mapData := []
    reduceData := m.map (fun p => (p.1, (safeGet data p.1, p.2.e))) }

/-- The publish loop of `masterWriteQueue` (src/unnamed/part_000,
lines 287-306): each subgraph's job is marshalled and published in turn;
the first failure is returned immediately, `none` meaning all publishes
succeeded. `step` bundles `protobuf.Marshal` followed by
`Channel.PublishWithContext` on the work queue. -/
def publishLoop (step : Job → Option PubErr) (fn : Graph → Job) :
    List Graph → Option PubErr
  | [] => none
  | g :: gs =>
    match step (fn g) with
    | some e => some e
    | none => publishLoop step fn gs

/-- The work publisher `masterWriteQueue` of src/unnamed/part_000
(lines 269-309): partition the graph into `numberOfJobs` round-robin
subgraphs, publish one job per subgraph, and only after the whole loop
succeeds set `n.Jobs = numberOfJobs`. On a marshal or publish error the
error is returned and the state is left untouched. The iteration order
of the Go map `range` is the order of the `graph` association list. -/
def masterWriteQueue (s : MasterState) (fn : Graph → Job)
    (step : Job → Option PubErr) : MasterState × Option PubErr :=
  match publishLoop step fn
      (partitionRR (numberOfJobs s.others.length s.graph.length) s.graph) with
  | some e => (s, some e)
  | none =>
    ({ s with jobs := numberOfJobs s.others.length s.graph.length }, none)

/-- The freshly reset master state built by the node-reset blocks of
`masterWait` (src/unnamed/part_000, lines 59-69) and `masterConvergence`
(lines 185-195): a new `proto.State` with zero-valued `Graph`, `C`,
`Threshold`, `Others` and `Phase = Wait`, with `Jobs = 0`,
`Responses = 0` and a fresh SafeMap. -/
def freshWaitState : MasterState :=
  { graph := []
    c := 0
    threshold := 0
    phase := Phase.Wait
    others := []
    jobs := 0
    responses := 0
    data := [] }

/-- The Wait-phase handler `masterWait` of src/unnamed/part_000
(lines 49-116). Parameters stand for the external collaborators:
`pr` is `graph.SingleNodePageRank` (the `graph` package is not under
`src/`; it rewrites the ranks of the given graph and the result is
printed), `config` is the blocking stdin configuration prompt returning
validated `(c, threshold, graph)`, and `step` is marshal-and-publish on
the work queue. The result carries the new state, the printed result
graph (empty when nothing is printed), and an error. The concurrent
`go masterSendUpdateToWorkers(n)` broadcast is modelled separately by
`masterSendUpdateToWorkers`. -/
def masterWait (s : MasterState) (pr : Graph → ℚ → ℚ → Graph)
    (config : ℚ × ℚ × Graph) (step : Job → Option PubErr) :
    MasterState × Graph × Option PubErr :=
  if s.graph ≠ [] then
    if s.others = [] then
      let results := pr s.graph s.c s.threshold
      (freshWaitState, results, none)
    else
      match masterWriteQueue s mapJobOf step with
      | (s1, some e) => (s1, [], some e)
      | (s1, none) => ({ s1 with phase := Phase.Map }, [], none)
  else
    ({ s with data := [],
              graph := config.2.2,
              c := config.1,
              threshold := config.2.1 }, [], none)

/-- The degenerate local finalization of `masterCollect`
(src/unnamed/part_000, lines 120-123): the map
`ranks[id] = c*Data.Get(id) + (1-c)*node.E` that the handler computes
into a local variable. -/
def degenerateRanks (s : MasterState) : List (Int × ℚ) :=
  s.graph.map (fun p => (p.1, s.c * safeGet s.data p.1 + (1 - s.c) * p.2.e))

/-- The Collect-phase handler `masterCollect` of src/unnamed/part_000
(lines 118-152). With no workers it computes `degenerateRanks` into the
local variable `ranks` — which the Go code then drops on return — and
switches the phase to Convergence. Otherwise it snapshots and resets
the SafeMap (`Clone` then `Reset`), publishes one Reduce job per
round-robin subgraph through `masterWriteQueue`, and on success switches
to Reduce. -/
def masterCollect (s : MasterState) (step : Job → Option PubErr) :
    MasterState × Option PubErr :=
  if s.others = [] then
    let _ranks := degenerateRanks s
    ({ s with phase := Phase.Convergence }, none)
  else
    let data := s.data
    let s1 := { s with data := [] }
    match masterWriteQueue s1 (reduceJobOf data) step with
    | (s2, some e) => (s2, some e)
    | (s2, none) => ({ s2 with phase := Phase.Reduce }, none)

/-- The embedding of Go `math.Abs`. -/
def ratAbs (q : ℚ) : ℚ :=
  if q < 0 then -q else q

/-- Set the rank of vertex `id` in place
(Go `n.State.Graph[id].Rank = newRank`). -/
def setRank (g : Graph) (id : Int) (r : ℚ) : Graph :=
  g.map (fun p => if p.1 = id then (p.1, { p.2 with rank := r }) else p)

/-- The commit loop of `masterConvergence` (src/unnamed/part_000,
lines 155-162): iterate the SafeMap keys in order, accumulate
`convergence += math.Abs(newRank - oldRank)` against the current graph,
and commit each new rank. Reading `n.State.Graph[id].Rank` for an `id`
absent from the graph is a nil-pointer crash, modelled as `none`. -/
def commitLoop : List (Int × ℚ) → Graph → ℚ → Option (Graph × ℚ)
  | [], g, acc => some (g, acc)
  | (id, newRank) :: rest, g, acc =>
    match mapLookup g id with
    | none => none
    | some node =>
      commitLoop rest (setRank g id newRank) (acc + ratAbs (newRank - node.rank))

/-- Specification-side view of the commit loop's graph result: every
SafeMap entry's rank written into the graph. -/
def commitAll (g : Graph) (data : List (Int × ℚ)) : Graph :=
  data.foldl (fun g p => setRank g p.1 p.2) g

/-- Specification-side view of the commit loop's accumulator: the L1
distance `Σ |newRank(id) − oldRank(id)|` over the SafeMap entries,
old ranks read from the graph as it was before any commit. -/
def convDelta (g : Graph) (data : List (Int × ℚ)) : ℚ :=
  (data.map (fun p => |p.2 - ((mapLookup g p.1).map GraphNode.rank).getD 0|)).sum

/-- The inner refresh loop of `masterConvergence` (src/unnamed/part_000,
lines 164-168): every in-link replica of one vertex is overwritten with
`graph[j].Rank`; a source id absent from the graph is a nil-pointer
crash, modelled as `none`. -/
def refreshLinks (g : Graph) : List (Int × ℚ) → Option (List (Int × ℚ))
  | [] => some []
  | (j, _) :: rest =>
    match mapLookup g j with
    | none => none
    | some node => (refreshLinks g rest).map (fun r => (j, node.rank) :: r)

/-- The outer refresh loop of `masterConvergence`: refresh the in-link
replicas of every listed vertex against the graph `g`. -/
def refreshAll (g : Graph) : Graph → Option Graph
  | [] => some []
  | (id, node) :: rest =>
    match refreshLinks g node.inLinks with
    | none => none
    | some links =>
      (refreshAll g rest).map (fun r => (id, { node with inLinks := links }) :: r)

/-- Refresh every in-link rank replica of `g` against `g` itself
(the ranks read during the refresh are vertex ranks, which the refresh
never writes, so the Go in-place loop reads exactly the committed
ranks). -/
def refreshGraph (g : Graph) : Option Graph :=
  refreshAll g g

/-- The normalization of the terminating branch of `masterConvergence`
(src/unnamed/part_000, lines 177-184): every rank is divided by the sum
of all ranks. -/
def normalizeGraph (g : Graph) : Graph :=
  let rankSum := (g.map (fun p => p.2.rank)).sum
  g.map (fun p => (p.1, { p.2 with rank := p.2.rank / rankSum }))

/-- The Convergence-phase handler `masterConvergence` of
src/unnamed/part_000 (lines 154-196): commit the accumulated ranks while
summing the L1 delta, refresh the in-link replicas, then either iterate
(`convergence > threshold`: back to Wait with the updated graph and the
same `c` and `threshold`) or terminate (normalize the ranks, print them,
and reset the state to a fresh Wait). Both branches end by replacing the
SafeMap with a fresh empty one. The second component of the result is
the printed (normalized) result graph, empty when iterating. -/
def masterConvergence (s : MasterState) : Option (MasterState × Graph) :=
  match commitLoop s.data s.graph 0 with
  | none => none
  | some (g1, convergence) =>
    match refreshGraph g1 with
    | none => none
    | some g2 =>
      if convergence > s.threshold then
        some ({ s with graph := g2, phase := Phase.Wait, data := [] }, [])
      else
        let g3 := normalizeGraph g2
        some (freshWaitState, g3)

/-- One delivery from the result queue, as seen by `masterReadQueue`:
`decoded` is the outcome of `protobuf.Unmarshal` into a `proto.Result`
(`none` = decode failure, `some pairs` = the `Values` mapping), and
`ackOk` tells whether `msg.Ack(false)` succeeds. -/
structure ResultMsg where
  decoded : Option (List (Int × ℚ))
  ackOk : Bool
deriving DecidableEq

/-- Fold every `(id, v)` pair of a decoded Result into the SafeMap
accumulator via `Increment` (src/unnamed/part_000, lines 332-334). -/
def foldResult (d : List (Int × ℚ)) (pairs : List (Int × ℚ)) : List (Int × ℚ) :=
  pairs.foldl (fun d p => safeIncrement d p.1 p.2) d

/-- Processing of one delivery by the result consumer `masterReadQueue`
(src/unnamed/part_000, lines 324-344), acting on the pair
`(SafeMap contents, responses)`: a decode failure nacks and leaves the
state unchanged; otherwise all pairs are folded in, the message is
acked, and only when the ack succeeds is `n.Responses` incremented. -/
def processMsg (st : List (Int × ℚ) × Nat) (m : ResultMsg) :
    List (Int × ℚ) × Nat :=
  match m.decoded with
  | none => st
  | some pairs =>
    let d := foldResult st.1 pairs
    if m.ackOk then (d, st.2 + 1) else (d, st.2)

/-- The result consumer `masterReadQueue` of src/unnamed/part_000
(lines 311-345), run over the sequence of deliveries it takes from the
result queue. -/
def masterReadQueue (st : List (Int × ℚ) × Nat) (msgs : List ResultMsg) :
    List (Int × ℚ) × Nat :=
  msgs.foldl processMsg st

/-- Specification-side view of the fully-folded accumulator: every
delivered message's decoded contributions folded in, in order. -/
def foldAllResults (d : List (Int × ℚ)) (msgs : List ResultMsg) :
    List (Int × ℚ) :=
  msgs.foldl (fun d m => foldResult d (m.decoded.getD [])) d

/-- The peer loop of `masterSendUpdateToWorkers` (src/unnamed/part_000,
lines 201-212): each peer is contacted in turn (`utils.NodeCall` then
`Client.StateUpdate`, both summarized by `callOk`); on a failure the
loop executes `crashed <- i` on the unbuffered channel `crashed`, whose
only receiver starts after this loop has finished and the channel is
closed — the send therefore blocks forever, modelled as `none`. -/
def broadcastLoop (callOk : String → Bool) : List String → Option Unit
  | [] => some ()
  | v :: rest => if callOk v then broadcastLoop callOk rest else none

/-- The survivor collection of `masterSendUpdateToWorkers`
(src/unnamed/part_000, lines 218-229): keep, in order, the peers whose
index is not in the crashed set. -/
def removeCrashed (others : List String) (crashedWorkers : List Nat) :
    List String :=
  (others.enum.filter (fun p => !(crashedWorkers.contains p.1))).map Prod.snd

/-- The broadcaster `masterSendUpdateToWorkers` of src/unnamed/part_000
(lines 199-230): run the peer loop; when it completes (no peer failed)
the closed `crashed` channel yields no indices, so the crashed set is
empty and `others` is replaced by the full survivor list. When any peer
fails, the blocked channel send prevents the function from ever
completing (`none`). -/
def masterSendUpdateToWorkers (others : List String)
    (callOk : String → Bool) : Option (List String) :=
  match broadcastLoop callOk others with
  | none => none
  | some _ => some (removeCrashed others [])

/-! Concrete test fixtures (used to exercise the theorems below on
explicit inputs). The two-vertex cycle `1 → 2, 2 → 1` is the trivial
graph of the spec's first scenario. -/

/-- Vertex 1 of the two-vertex cycle: rank 1/2, teleport weight 1/2,
one in-link from vertex 2 whose replica rank is stale (0). -/
def nodeA : GraphNode := ⟨1/2, 1/2, [(2, 0)]⟩

/-- Vertex 2 of the two-vertex cycle. -/
def nodeB : GraphNode := ⟨1/2, 1/2, [(1, 0)]⟩

/-- A plain vertex with no in-links, for partition fixtures. -/
def nodeC : GraphNode := ⟨1, 1, []⟩

/-- A Collect-phase master state with no workers: one vertex with
teleport weight 1 and old rank 1/4, damping 1/2, and an accumulated
map-contribution sum of 2 for the vertex. -/
def collectState0 : MasterState :=
  { graph := [(1, ⟨1/4, 1, []⟩)]
    c := 1/2
    threshold := 1/100
    phase := Phase.Collect
    others := []
    jobs := 0
    responses := 0
    data := [(1, 2)] }

/-- A Wait-phase master state used to exercise the publisher: two
vertices, three workers. -/
def waitState0 : MasterState :=
  { graph := [(1, nodeC), (2, nodeC)]
    c := 1/2
    threshold := 1/100
    phase := Phase.Wait
    others := ["w1", "w2", "w3"]
    jobs := 7
    responses := 0
    data := [] }

/-- A Wait-phase master state with a loaded graph and no workers. -/
def waitState1 : MasterState :=
  { graph := [(1, nodeA), (2, nodeB)]
    c := 17/20
    threshold := 1/100
    phase := Phase.Wait
    others := []
    jobs := 2
    responses := 1
    data := [(1, 1/3)] }

/-- A Convergence-phase state that terminates (threshold 2 is larger
than the L1 delta 1/2 of its accumulator). -/
def convTermState : MasterState :=
  { graph := [(1, nodeA), (2, nodeB)]
    c := 17/20
    threshold := 2
    phase := Phase.Convergence
    others := []
    jobs := 3
    responses := 0
    data := [(1, 3/4), (2, 1/4)] }

/-- The result graph printed by `masterConvergence` on `convTermState`:
committed ranks 3/4 and 1/4, refreshed replicas, normalization by the
rank sum 1. -/
def emTermGraph : Graph :=
  [(1, ⟨3/4, 1/2, [(2, 1/4)]⟩), (2, ⟨1/4, 1/2, [(1, 3/4)]⟩)]

/-- A Convergence-phase state that iterates (threshold 1/100 is smaller
than the L1 delta 1/2 of its accumulator). -/
def convIterState : MasterState :=
  { graph := [(1, nodeA), (2, nodeB)]
    c := 17/20
    threshold := 1/100
    phase := Phase.Convergence
    others := []
    jobs := 3
    responses := 0
    data := [(1, 3/4), (2, 1/4)] }

/-- The state `masterConvergence` produces from `convIterState`: new
ranks committed, replicas refreshed, phase back to Wait, SafeMap
fresh. -/
def iterState' : MasterState :=
  { graph := [(1, ⟨3/4, 1/2, [(2, 1/4)]⟩), (2, ⟨1/4, 1/2, [(1, 3/4)]⟩)]
    c := 17/20
    threshold := 1/100
    phase := Phase.Wait
    others := []
    jobs := 3
    responses := 0
    data := [] }

/-- A Convergence-phase state for the termination-and-normalization
claim: accumulated ranks 1/2 and 1/4 (rank sum 3/4, so normalization is
a genuine division). -/
def convTermState2 : MasterState :=
  { graph := [(1, nodeA), (2, nodeB)]
    c := 17/20
    threshold := 2
    phase := Phase.Convergence
    others := []
    jobs := 3
    responses := 0
    data := [(1, 1/2), (2, 1/4)] }

/-- Two well-formed result-queue deliveries whose contributions overlap
on vertex 1. -/
def msgs0 : List ResultMsg :=
  [⟨some [(1, 1/2)], true⟩, ⟨some [(2, 1/3), (1, 1/6)], true⟩]

/-- The result graph printed by `masterConvergence` on `convTermState2`:
committed ranks 1/2 and 1/4, refreshed replicas, normalization by the
rank sum 3/4. -/
def emTermGraph2 : Graph :=
  [(1, ⟨2/3, 1/2, [(2, 1/4)]⟩), (2, ⟨1/3, 1/2, [(1, 1/2)]⟩)]

/-! Helper lemmas about the round-robin partitioner. -/

theorem updateNth_length {α : Type} (l : List α) (i : Nat) (f : α → α) :
    (updateNth l i f).length = l.length := by
  induction l generalizing i with
  | nil => rfl
  | cons x xs ih =>
    cases i with
    | zero => rfl
    | succ n => simpa [updateNth] using ih n

theorem updateNth_flatten_perm {α : Type} (l : List (List α)) (i : Nat) (x : α)
    (hi : i < l.length) :
    ((updateNth l i (fun sh => sh ++ [x])).flatten).Perm (x :: l.flatten) := by
  induction l generalizing i with
  | nil => simp at hi
  | cons s rest ih =>
    cases i with
    | zero =>
      simp only [updateNth, List.flatten_cons]
      have h1 : (s ++ [x]).Perm (x :: s) :=
        List.perm_append_comm.trans (by simp)
      exact h1.append_right rest.flatten
    | succ n =>
      simp only [updateNth, List.flatten_cons]
      have h1 := ih n (by simp at hi; exact hi)
      refine (h1.append_left s).trans ?_
      exact @List.perm_middle _ x s rest.flatten

theorem rrLoop_length (k : Nat) (xs : List (Int × GraphNode)) :
    ∀ (i : Nat) (shards : List (List (Int × GraphNode))),
      (rrLoop k xs i shards).length = shards.length := by
  induction xs with
  | nil => intro i shards; rfl
  | cons x xs ih =>
    intro i shards
    simp only [rrLoop]
    rw [ih, updateNth_length]

theorem rrLoop_flatten_perm (k : Nat) (hk : 0 < k) (xs : List (Int × GraphNode)) :
    ∀ (i : Nat) (shards : List (List (Int × GraphNode))),
      shards.length = k → i < k →
      ((rrLoop k xs i shards).flatten).Perm (shards.flatten ++ xs) := by
  induction xs with
  | nil => intro i shards _ _; simp [rrLoop]
  | cons x xs ih =>
    intro i shards hlen hi
    simp only [rrLoop]
    have h1 : (updateNth shards i (fun sh => sh ++ [x])).length = k := by
      rw [updateNth_length]; exact hlen
    have h2 := ih ((i + 1) % k) (updateNth shards i (fun sh => sh ++ [x])) h1
      (Nat.mod_lt _ hk)
    refine h2.trans ?_
    have h3 := updateNth_flatten_perm shards i x (by omega)
    refine (h3.append_right xs).trans ?_
    simpa using (@List.perm_middle _ x shards.flatten xs).symm

theorem flatten_replicate_nil {α : Type} (k : Nat) :
    (List.replicate k ([] : List α)).flatten = [] := by
  induction k with
  | zero => rfl
  | succ n ih => simp [List.replicate_succ, ih]

theorem partitionRR_flatten_perm (k : Nat) (hk : 0 < k)
    (l : List (Int × GraphNode)) : ((partitionRR k l).flatten).Perm l := by
  have h := rrLoop_flatten_perm k hk l 0 (List.replicate k []) (by simp) hk
  simpa [partitionRR, flatten_replicate_nil] using h

theorem partitionRR_length (k : Nat) (l : List (Int × GraphNode)) :
    (partitionRR k l).length = k := by
  simp [partitionRR, rrLoop_length]

/-- C2: for every graph iteration order and every K with 1 ≤ K ≤ |g|,
the round-robin partition built by `masterWriteQueue` produces K
subgraphs whose vertex-set union equals the vertex set of the graph and
whose pairwise intersections are empty. -/
theorem partitionRR_cover_disjoint (l : List (Int × GraphNode)) (k : Nat)
    (hk1 : 1 ≤ k) (_hk2 : k ≤ l.length) (hnd : (l.map Prod.fst).Nodup) :
    (partitionRR k l).length = k ∧
    (∀ id : Int,
      (∃ sh ∈ partitionRR k l, ∃ p ∈ sh, p.1 = id) ↔ ∃ p ∈ l, p.1 = id) ∧
    List.Pairwise (fun s t => ∀ p ∈ s, ∀ q ∈ t, p.1 ≠ q.1)
      (partitionRR k l) := by
  have hperm := partitionRR_flatten_perm k (by omega) l
  refine ⟨partitionRR_length k l, ?_, ?_⟩
  · intro id
    constructor
    · rintro ⟨sh, hsh, p, hp, rfl⟩
      have hmem : p ∈ (partitionRR k l).flatten := List.mem_flatten.2 ⟨sh, hsh, hp⟩
      exact ⟨p, hperm.mem_iff.1 hmem, rfl⟩
    · rintro ⟨p, hp, rfl⟩
      have hmem : p ∈ (partitionRR k l).flatten := hperm.mem_iff.2 hp
      obtain ⟨sh, h1, h2⟩ := List.mem_flatten.1 hmem
      exact ⟨sh, h1, p, h2, rfl⟩
  · have h1 : ((partitionRR k l).flatten.map Prod.fst).Nodup :=
      ((hperm.map Prod.fst).nodup_iff).2 hnd
    rw [List.map_flatten] at h1
    have h2 := (List.nodup_flatten.1 h1).2
    rw [List.pairwise_map] at h2
    refine h2.imp ?_
    intro s t hdisj p hp q hq hpq
    exact hdisj (List.mem_map_of_mem Prod.fst hp)
      (hpq ▸ List.mem_map_of_mem Prod.fst hq)

/-- Witness for C2 at a concrete three-vertex graph split into two
shards. -/
theorem partitionRR_cover_disjoint_witness :
    1 ≤ 2 ∧
    2 ≤ ([(1, nodeC), (2, nodeC), (3, nodeC)] : List (Int × GraphNode)).length ∧
    (([(1, nodeC), (2, nodeC), (3, nodeC)] : List (Int × GraphNode)).map
      Prod.fst).Nodup ∧
    (partitionRR 2 [(1, nodeC), (2, nodeC), (3, nodeC)]).length = 2 :=
  ⟨by decide, by decide, by decide,
    (partitionRR_cover_disjoint [(1, nodeC), (2, nodeC), (3, nodeC)] 2
      (by decide) (by decide) (by decide)).1⟩

/-- C3 (code_bug evidence): the part_000 publisher computes
`K = min(|others|, |graph|)` as the claim states, but the part_001
Reduce dispatch (`masterCollect`, lines 66-70) computes
`len(graph) - 1` when `|others| ≥ |graph|`: with one worker and a
one-vertex graph it yields K = 0 instead of min(1,1) = 1, after which
the partition loop indexes the empty shard slice and panics. -/
theorem numberOfJobsV1_off_by_one :
    (∀ o g : Nat, numberOfJobs o g = min o g) ∧
    numberOfJobsV1 1 1 = 0 ∧ min 1 1 = 1 := by
  refine ⟨fun o g => ?_, by decide, by decide⟩
  unfold numberOfJobs
  split <;> omega

/-- C4 (code_bug evidence): in `masterSendUpdateToWorkers` the crash
report `crashed <- i` is a send on an unbuffered channel whose receiver
only starts after the loop has completed and the channel is closed, so
the first failing peer blocks the broadcast forever (`none`) and
`others` is never replaced; only when no peer fails does the function
complete, with the survivor list equal to the full peer list. -/
theorem masterSendUpdateToWorkers_blocks_on_crash :
    masterSendUpdateToWorkers ["w1"] (fun _ => false) = none ∧
    masterSendUpdateToWorkers ["w1", "w2"] (fun v => v ≠ "w2") = none ∧
    masterSendUpdateToWorkers ["w1", "w2"] (fun _ => true) = some ["w1", "w2"] := by
  refine ⟨rfl, by decide, by decide⟩

/-- C8 (code_bug evidence): with no workers, `masterCollect` computes the
degenerate finalized ranks `c*Data.Get(id) + (1-c)*node.E` into the Go
local variable `ranks`, drops it on return, and only flips the phase to
Convergence: on `collectState0` the finalized rank of vertex 1 is 3/2,
but the state handed to the Convergence phase still carries the raw
map sum 2 in its accumulator and is otherwise unchanged. -/
theorem masterCollect_discards_local_ranks :
    masterCollect collectState0 (fun _ => none) =
      ({ collectState0 with phase := Phase.Convergence }, none) ∧
    degenerateRanks collectState0 = [(1, 3/2)] ∧
    (masterCollect collectState0 (fun _ => none)).1.data = [(1, 2)] ∧
    (masterCollect collectState0 (fun _ => none)).1.data ≠
      degenerateRanks collectState0 := by
  refine ⟨by with_unfolding_all decide, by with_unfolding_all decide,
    by with_unfolding_all decide, by with_unfolding_all decide⟩

theorem publishLoop_eq_none_iff (step : Job → Option PubErr)
    (fn : Graph → Job) (l : List Graph) :
    publishLoop step fn l = none ↔ ∀ g ∈ l, step (fn g) = none := by
  induction l with
  | nil => simp [publishLoop]
  | cons g gs ih =>
    simp only [publishLoop]
    cases h : step (fn g) with
    | none => simp [h, ih]
    | some e => simp [h]

/-- C5: `masterWriteQueue` sets the jobs counter to K exactly when all K
subgraph jobs were serialized and published successfully; on any single
failure the error is returned to the phase handler and the state — in
particular the jobs counter — is left unchanged. -/
theorem masterWriteQueue_jobs_after_success (s : MasterState)
    (fn : Graph → Job) (step : Job → Option PubErr) :
    ((masterWriteQueue s fn step).2 = none ↔
      ∀ g ∈ partitionRR (numberOfJobs s.others.length s.graph.length) s.graph,
        step (fn g) = none) ∧
    ((masterWriteQueue s fn step).2 = none →
      (masterWriteQueue s fn step).1 =
        { s with jobs := numberOfJobs s.others.length s.graph.length }) ∧
    (∀ e, (masterWriteQueue s fn step).2 = some e →
      (masterWriteQueue s fn step).1 = s ∧
      (masterWriteQueue s fn step).1.jobs = s.jobs) := by
  cases h : publishLoop step fn
      (partitionRR (numberOfJobs s.others.length s.graph.length) s.graph) with
  | none =>
    refine ⟨?_, ?_, ?_⟩
    · simp only [masterWriteQueue, h]
      simp only [true_iff, iff_true]
      exact (publishLoop_eq_none_iff step fn _).1 h
    · intro _
      simp [masterWriteQueue, h]
    · intro e he
      simp [masterWriteQueue, h] at he
  | some e0 =>
    refine ⟨?_, ?_, ?_⟩
    · constructor
      · intro hc
        simp [masterWriteQueue, h] at hc
      · intro hall
        have h2 := (publishLoop_eq_none_iff step fn _).2 hall
        rw [h] at h2
        exact absurd h2 (by simp)
    · intro hc
      simp [masterWriteQueue, h] at hc
    · intro e' _
      simp [masterWriteQueue, h]

/-- Witness for C5: on `waitState0` (three workers, two vertices) with
an always-succeeding publish, the counter becomes K = 2; with an
always-failing publish, the error surfaces and the state is unchanged. -/
theorem masterWriteQueue_jobs_after_success_witness :
    (masterWriteQueue waitState0 mapJobOf (fun _ => none)).2 = none ∧
    (masterWriteQueue waitState0 mapJobOf (fun _ => none)).1 =
      { waitState0 with jobs := 2 } ∧
    (masterWriteQueue waitState0 mapJobOf (fun _ => some "broker down")).1.jobs =
      waitState0.jobs := by
  refine ⟨by decide, ?_, ?_⟩
  · have h := (masterWriteQueue_jobs_after_success waitState0 mapJobOf
      (fun _ => none)).2.1 (by decide)
    exact h
  · exact ((masterWriteQueue_jobs_after_success waitState0 mapJobOf
      (fun _ => some "broker down")).2.2 "broker down" (by decide)).2

theorem masterReadQueue_responses_count (msgs : List ResultMsg) :
    ∀ (d0 : List (Int × ℚ)) (r0 : Nat),
      (masterReadQueue (d0, r0) msgs).2 =
        r0 + msgs.countP (fun m => m.decoded.isSome && m.ackOk) := by
  induction msgs with
  | nil => intro d0 r0; simp [masterReadQueue]
  | cons m rest ih =>
    intro d0 r0
    simp only [masterReadQueue, List.foldl_cons] at *
    cases hm : m.decoded with
    | none =>
      simp [processMsg, hm, ih, List.countP_cons]
    | some pairs =>
      cases ha : m.ackOk with
      | false => simp [processMsg, hm, ha, ih, List.countP_cons]
      | true =>
        simp [processMsg, hm, ha, ih, List.countP_cons]
        omega

theorem masterReadQueue_data_all_decoded (msgs : List ResultMsg) :
    ∀ (d0 : List (Int × ℚ)) (r0 : Nat),
      (∀ m ∈ msgs, m.decoded.isSome) →
      (masterReadQueue (d0, r0) msgs).1 = foldAllResults d0 msgs := by
  induction msgs with
  | nil => intro d0 r0 _; rfl
  | cons m rest ih =>
    intro d0 r0 hall
    obtain ⟨pairs, hp⟩ := Option.isSome_iff_exists.1 (hall m (by simp))
    have hrest : ∀ m' ∈ rest, m'.decoded.isSome := fun m' hm' =>
      hall m' (by simp [hm'])
    simp only [masterReadQueue, List.foldl_cons, foldAllResults] at *
    cases ha : m.ackOk with
    | false => simpa [processMsg, hp, ha] using ih _ _ hrest
    | true => simpa [processMsg, hp, ha] using ih _ _ hrest

/-- C6: the responses counter counts exactly the messages whose decoded
contributions were all folded into the accumulator and whose ack
succeeded; hence when the phase driver observes `responses == jobs`
(one result message per published job), every message was fully folded
and acked, and the accumulator holds every published subgraph's
contributions. -/
theorem masterReadQueue_responses_ordering (d0 : List (Int × ℚ))
    (msgs : List ResultMsg) :
    (masterReadQueue (d0, 0) msgs).2 =
      msgs.countP (fun m => m.decoded.isSome && m.ackOk) ∧
    ((masterReadQueue (d0, 0) msgs).2 = msgs.length →
      (∀ m ∈ msgs, m.decoded.isSome ∧ m.ackOk = true) ∧
      (masterReadQueue (d0, 0) msgs).1 = foldAllResults d0 msgs) := by
  have h1 := masterReadQueue_responses_count msgs d0 0
  refine ⟨by simpa using h1, ?_⟩
  intro hr
  rw [h1] at hr
  simp only [Nat.zero_add] at hr
  have hall := List.countP_eq_length.1 hr
  have hdec : ∀ m ∈ msgs, m.decoded.isSome := by
    intro m hm
    have h2 := hall m hm
    exact (Bool.and_eq_true_iff.1 h2).1
  refine ⟨?_, masterReadQueue_data_all_decoded msgs d0 0 hdec⟩
  intro m hm
  have h2 := Bool.and_eq_true_iff.1 (hall m hm)
  exact ⟨h2.1, h2.2⟩

/-- Witness for C6: both fixture messages decode and ack, so after they
are consumed `responses = 2 = jobs` and the accumulator equals the full
fold of both messages. -/
theorem masterReadQueue_responses_ordering_witness :
    (masterReadQueue ([], 0) msgs0).2 = msgs0.length ∧
    (masterReadQueue ([], 0) msgs0).1 = foldAllResults [] msgs0 := by
  refine ⟨by decide, ?_⟩
  exact ((masterReadQueue_responses_ordering [] msgs0).2 (by decide)).2

/-- C9: when the Wait handler runs with a loaded graph and no workers,
it computes PageRank locally (the single-node routine `pr`, whose result
is printed), and resets the state to a fresh Wait: empty graph, c = 0,
threshold = 0, phase Wait, jobs = 0, responses = 0, and a fresh empty
SafeMap. -/
theorem masterWait_single_node_reset (s : MasterState)
    (pr : Graph → ℚ → ℚ → Graph) (config : ℚ × ℚ × Graph)
    (step : Job → Option PubErr)
    (hg : s.graph ≠ []) (ho : s.others = []) :
    masterWait s pr config step =
      (freshWaitState, pr s.graph s.c s.threshold, none) ∧
    (masterWait s pr config step).1.graph = [] ∧
    (masterWait s pr config step).1.c = 0 ∧
    (masterWait s pr config step).1.threshold = 0 ∧
    (masterWait s pr config step).1.phase = Phase.Wait ∧
    (masterWait s pr config step).1.jobs = 0 ∧
    (masterWait s pr config step).1.responses = 0 ∧
    (masterWait s pr config step).1.data = [] := by
  have h : masterWait s pr config step =
      (freshWaitState, pr s.graph s.c s.threshold, none) := by
    simp [masterWait, hg, ho]
  refine ⟨h, ?_, ?_, ?_, ?_, ?_, ?_, ?_⟩ <;> rw [h] <;> rfl

/-- Witness for C9 on `waitState1` (two-vertex graph, no workers), with
the single-node routine instantiated by the identity on the graph. -/
theorem masterWait_single_node_reset_witness :
    waitState1.graph ≠ [] ∧ waitState1.others = [] ∧
    masterWait waitState1 (fun g _ _ => g) (0, 0, []) (fun _ => none) =
      (freshWaitState, waitState1.graph, none) := by
  refine ⟨by decide, by decide, ?_⟩
  exact (masterWait_single_node_reset waitState1 (fun g _ _ => g) (0, 0, [])
    (fun _ => none) (by decide) (by decide)).1

/-! Helper lemmas about the Convergence engine. -/

theorem ratAbs_eq_abs (q : ℚ) : ratAbs q = |q| := by
  by_cases h : q < 0
  · rw [ratAbs, if_pos h, abs_of_neg h]
  · rw [ratAbs, if_neg h, abs_of_nonneg (le_of_not_lt h)]

theorem mapLookup_setRank_self (g : Graph) (id : Int) (r : ℚ) :
    mapLookup (setRank g id r) id =
      (mapLookup g id).map (fun n => { n with rank := r }) := by
  induction g with
  | nil => rfl
  | cons p rest ih =>
    by_cases h : p.1 = id
    · simp [setRank, mapLookup, h]
    · simp only [setRank, List.map_cons] at *
      rw [if_neg h]
      simp only [mapLookup, if_neg h]
      exact ih

theorem mapLookup_setRank_ne (g : Graph) (id j : Int) (r : ℚ) (h : j ≠ id) :
    mapLookup (setRank g id r) j = mapLookup g j := by
  induction g with
  | nil => rfl
  | cons p rest ih =>
    by_cases hp : p.1 = id
    · have hj : ¬ p.1 = j := fun hc => h (hc ▸ hp)
      simp only [setRank, List.map_cons, if_pos hp] at *
      simp only [mapLookup, if_neg hj]
      exact ih
    · simp only [setRank, List.map_cons, if_neg hp] at *
      by_cases hj : p.1 = j
      · simp [mapLookup, hj]
      · simp only [mapLookup, if_neg hj]
        exact ih

theorem commitLoop_eq (data : List (Int × ℚ)) :
    ∀ (g : Graph) (acc : ℚ),
      (data.map Prod.fst).Nodup →
      (∀ p ∈ data, (mapLookup g p.1).isSome) →
      commitLoop data g acc = some (commitAll g data, acc + convDelta g data) := by
  induction data with
  | nil =>
    intro g acc _ _
    simp [commitLoop, commitAll, convDelta]
  | cons hd rest ih =>
    intro g acc hnd hdom
    obtain ⟨id, nr⟩ := hd
    obtain ⟨node, hnode⟩ :=
      Option.isSome_iff_exists.1 (hdom (id, nr) (by simp))
    rw [List.map_cons] at hnd
    obtain ⟨hid0, hnd'⟩ := List.nodup_cons.1 hnd
    have hid : id ∉ rest.map Prod.fst := hid0
    have hdom' : ∀ p ∈ rest, (mapLookup (setRank g id nr) p.1).isSome := by
      intro p hp
      have hne : p.1 ≠ id := fun hc =>
        hid (hc ▸ List.mem_map_of_mem Prod.fst hp)
      rw [mapLookup_setRank_ne g id p.1 nr hne]
      exact hdom p (by simp [hp])
    have hrec := ih (setRank g id nr) (acc + ratAbs (nr - node.rank)) hnd' hdom'
    simp only [commitLoop, hnode]
    rw [hrec]
    have hdelta : convDelta (setRank g id nr) rest = convDelta g rest := by
      unfold convDelta
      congr 1
      apply List.map_congr_left
      intro p hp
      have hne : p.1 ≠ id := fun hc =>
        hid (hc ▸ List.mem_map_of_mem Prod.fst hp)
      rw [mapLookup_setRank_ne g id p.1 nr hne]
    have hall : commitAll (setRank g id nr) rest = commitAll g ((id, nr) :: rest) := by
      simp [commitAll]
    have harith : acc + ratAbs (nr - node.rank) + convDelta g rest =
        acc + convDelta g ((id, nr) :: rest) := by
      rw [ratAbs_eq_abs]
      unfold convDelta
      simp only [List.map_cons, List.sum_cons, hnode,
        show (Option.map GraphNode.rank (some node)).getD 0 = node.rank from rfl]
      ring
    rw [hdelta, hall, harith]

theorem mapLookup_commitAll_not_mem (data : List (Int × ℚ)) :
    ∀ (g : Graph) (id : Int), id ∉ data.map Prod.fst →
      mapLookup (commitAll g data) id = mapLookup g id := by
  induction data with
  | nil => intro g id _; rfl
  | cons hd rest ih =>
    intro g id hid
    have h1 : id ∉ rest.map Prod.fst := by
      intro hc; exact hid (by simp [hc])
    have h2 : id ≠ hd.1 := by
      intro hc; exact hid (by simp [hc])
    have h3 : commitAll g (hd :: rest) = commitAll (setRank g hd.1 hd.2) rest := by
      simp [commitAll]
    rw [h3, ih (setRank g hd.1 hd.2) id h1,
      mapLookup_setRank_ne g hd.1 id hd.2 h2]

theorem mapLookup_commitAll_mem (data : List (Int × ℚ)) :
    ∀ (g : Graph), (data.map Prod.fst).Nodup →
      ∀ p ∈ data, mapLookup (commitAll g data) p.1 =
        (mapLookup g p.1).map (fun n => { n with rank := p.2 }) := by
  induction data with
  | nil => intro g _ p hp; simp at hp
  | cons hd rest ih =>
    intro g hnd p hp
    rw [List.map_cons] at hnd
    obtain ⟨hhd0, hnd'⟩ := List.nodup_cons.1 hnd
    have hhd : hd.1 ∉ rest.map Prod.fst := hhd0
    have h3 : commitAll g (hd :: rest) = commitAll (setRank g hd.1 hd.2) rest := by
      simp [commitAll]
    rcases List.mem_cons.1 hp with heq | hp'
    · subst heq
      rw [h3, mapLookup_commitAll_not_mem rest (setRank g p.1 p.2) p.1 hhd,
        mapLookup_setRank_self]
    · have hne : p.1 ≠ hd.1 := fun hc =>
        hhd (hc ▸ List.mem_map_of_mem Prod.fst hp')
      rw [h3, ih (setRank g hd.1 hd.2) hnd' p hp',
        mapLookup_setRank_ne g hd.1 p.1 hd.2 hne]

theorem refreshLinks_isSome (g : Graph) (links : List (Int × ℚ))
    (h : ∀ q ∈ links, (mapLookup g q.1).isSome) :
    (refreshLinks g links).isSome := by
  induction links with
  | nil => simp [refreshLinks]
  | cons q0 rest ih =>
    obtain ⟨j, v⟩ := q0
    obtain ⟨node, hn⟩ := Option.isSome_iff_exists.1 (h (j, v) (by simp))
    obtain ⟨rest', hr⟩ := Option.isSome_iff_exists.1
      (ih (fun q' hq' => h q' (by simp [hq'])))
    simp [refreshLinks, hn, hr]

theorem refreshLinks_spec (g : Graph) :
    ∀ (links links' : List (Int × ℚ)), refreshLinks g links = some links' →
      ∀ q ∈ links', ∃ node, mapLookup g q.1 = some node ∧ q.2 = node.rank := by
  intro links
  induction links with
  | nil =>
    intro links' h
    simp only [refreshLinks, Option.some.injEq] at h
    subst h
    intro q hq
    simp at hq
  | cons q0 rest ih =>
    obtain ⟨j, v⟩ := q0
    intro links' h
    simp only [refreshLinks] at h
    cases hn : mapLookup g j with
    | none => rw [hn] at h; simp at h
    | some node =>
      rw [hn] at h
      cases hr : refreshLinks g rest with
      | none => rw [hr] at h; simp at h
      | some rest' =>
        rw [hr] at h
        simp only [Option.map_some', Option.some.injEq] at h
        subst h
        intro q hq
        rcases List.mem_cons.1 hq with heq | hq'
        · subst heq
          exact ⟨node, hn, rfl⟩
        · exact ih rest' hr q hq'

theorem refreshAll_isSome (g : Graph) :
    ∀ (l : Graph),
      (∀ p ∈ l, ∀ q ∈ p.2.inLinks, (mapLookup g q.1).isSome) →
      (refreshAll g l).isSome := by
  intro l
  induction l with
  | nil => simp [refreshAll]
  | cons p0 rest ih =>
    intro h
    obtain ⟨id, node⟩ := p0
    obtain ⟨links, hl⟩ := Option.isSome_iff_exists.1
      (refreshLinks_isSome g node.inLinks (fun q hq => h (id, node) (by simp) q hq))
    obtain ⟨rest', hr⟩ := Option.isSome_iff_exists.1
      (ih (fun p hp q hq => h p (by simp [hp]) q hq))
    simp [refreshAll, hl, hr]

theorem refreshAll_spec (g : Graph) :
    ∀ (l l' : Graph), refreshAll g l = some l' →
      ∀ p ∈ l', ∀ q ∈ p.2.inLinks,
        ∃ node, mapLookup g q.1 = some node ∧ q.2 = node.rank := by
  intro l
  induction l with
  | nil =>
    intro l' h
    simp only [refreshAll, Option.some.injEq] at h
    subst h
    intro p hp
    simp at hp
  | cons p0 rest ih =>
    obtain ⟨id, node⟩ := p0
    intro l' h
    simp only [refreshAll] at h
    cases hl : refreshLinks g node.inLinks with
    | none => rw [hl] at h; simp at h
    | some links =>
      rw [hl] at h
      cases hr : refreshAll g rest with
      | none => rw [hr] at h; simp at h
      | some rest' =>
        rw [hr] at h
        simp only [Option.map_some', Option.some.injEq] at h
        subst h
        intro p hp q hq
        rcases List.mem_cons.1 hp with heq | hp'
        · subst heq
          exact refreshLinks_spec g node.inLinks links hl q hq
        · exact ih rest' hr p hp' q hq

theorem refreshAll_lookup_rank (g : Graph) :
    ∀ (l l' : Graph), refreshAll g l = some l' →
      ∀ j : Int, (mapLookup l' j).map GraphNode.rank =
        (mapLookup l j).map GraphNode.rank := by
  intro l
  induction l with
  | nil =>
    intro l' h
    simp only [refreshAll, Option.some.injEq] at h
    subst h
    intro j; rfl
  | cons p0 rest ih =>
    obtain ⟨id, node⟩ := p0
    intro l' h
    simp only [refreshAll] at h
    cases hl : refreshLinks g node.inLinks with
    | none => rw [hl] at h; simp at h
    | some links =>
      rw [hl] at h
      cases hr : refreshAll g rest with
      | none => rw [hr] at h; simp at h
      | some rest' =>
        rw [hr] at h
        simp only [Option.map_some', Option.some.injEq] at h
        subst h
        intro j
        by_cases hj : id = j
        · simp [mapLookup, hj]
        · simp only [mapLookup, if_neg hj]
          exact ih rest' hr j

theorem refreshAll_rank_list (g : Graph) :
    ∀ (l l' : Graph), refreshAll g l = some l' →
      l'.map (fun p => p.2.rank) = l.map (fun p => p.2.rank) := by
  intro l
  induction l with
  | nil =>
    intro l' h
    simp only [refreshAll, Option.some.injEq] at h
    subst h; rfl
  | cons p0 rest ih =>
    obtain ⟨id, node⟩ := p0
    intro l' h
    simp only [refreshAll] at h
    cases hl : refreshLinks g node.inLinks with
    | none => rw [hl] at h; simp at h
    | some links =>
      rw [hl] at h
      cases hr : refreshAll g rest with
      | none => rw [hr] at h; simp at h
      | some rest' =>
        rw [hr] at h
        simp only [Option.map_some', Option.some.injEq] at h
        subst h
        simp [ih rest' hr]

theorem sum_map_div (l : List ℚ) (c : ℚ) :
    (l.map (fun x => x / c)).sum = l.sum / c := by
  induction l with
  | nil => simp
  | cons x rest ih => simp [ih, add_div]

theorem normalizeGraph_sum (g : Graph)
    (h : (g.map (fun p => p.2.rank)).sum ≠ 0) :
    ((normalizeGraph g).map (fun p => p.2.rank)).sum = 1 := by
  have h1 : (normalizeGraph g).map (fun p => p.2.rank) =
      (g.map (fun p => p.2.rank)).map
        (fun x => x / (g.map (fun p => p.2.rank)).sum) := by
    simp only [normalizeGraph, List.map_map]
    rfl
  rw [h1, sum_map_div, div_self h]

theorem masterConvergence_unfold_none (s : MasterState)
    (h1 : commitLoop s.data s.graph 0 = none) : masterConvergence s = none := by
  unfold masterConvergence
  rw [h1]

theorem masterConvergence_unfold (s : MasterState) (g1 : Graph) (conv : ℚ)
    (h1 : commitLoop s.data s.graph 0 = some (g1, conv)) :
    masterConvergence s =
      match refreshGraph g1 with
      | none => none
      | some g2 =>
        if conv > s.threshold then
          some ({ s with graph := g2, phase := Phase.Wait, data := [] }, [])
        else some (freshWaitState, normalizeGraph g2) := by
  unfold masterConvergence
  rw [h1]

/-- C10: the Convergence handler replaces the SafeMap accumulator with a
fresh empty map in both of its branches — also when Δ > threshold and
the run iterates back to Wait — so every Map phase starts from an empty
accumulator. -/
theorem masterConvergence_resets_data (s s' : MasterState) (em : Graph)
    (h : masterConvergence s = some (s', em)) : s'.data = [] := by
  cases h1 : commitLoop s.data s.graph 0 with
  | none =>
    rw [masterConvergence_unfold_none s h1] at h
    exact Option.noConfusion h
  | some pr =>
    obtain ⟨g1, conv⟩ := pr
    rw [masterConvergence_unfold s g1 conv h1] at h
    cases h2 : refreshGraph g1 with
    | none =>
      rw [h2] at h
      exact Option.noConfusion h
    | some g2 =>
      rw [h2] at h
      have h' : (if conv > s.threshold then
          some ({ s with graph := g2, phase := Phase.Wait, data := [] },
            ([] : Graph))
        else some (freshWaitState, normalizeGraph g2)) = some (s', em) := h
      by_cases hc : conv > s.threshold
      · rw [if_pos hc] at h'
        simp only [Option.some.injEq, Prod.mk.injEq] at h'
        rw [← h'.1]
      · rw [if_neg hc] at h'
        simp only [Option.some.injEq, Prod.mk.injEq] at h'
        rw [← h'.1]
        rfl

/-- Witness for C10 on the terminating fixture. -/
theorem masterConvergence_resets_data_witness :
    masterConvergence convTermState = some (freshWaitState, emTermGraph) ∧
    freshWaitState.data = [] :=
  ⟨by with_unfolding_all decide,
   masterConvergence_resets_data convTermState freshWaitState emTermGraph
     (by with_unfolding_all decide)⟩

/-- C7: after any completed Convergence phase — hence at the start of
any following Map phase — every in-link replica of every vertex of the
resulting graph carries exactly the committed rank of its source
vertex. -/
theorem inLinks_replica_invariant (s s' : MasterState) (em : Graph)
    (h : masterConvergence s = some (s', em)) :
    ∀ p ∈ s'.graph, ∀ q ∈ p.2.inLinks,
      (mapLookup s'.graph q.1).map GraphNode.rank = some q.2 := by
  cases h1 : commitLoop s.data s.graph 0 with
  | none =>
    rw [masterConvergence_unfold_none s h1] at h
    exact Option.noConfusion h
  | some pr =>
    obtain ⟨g1, conv⟩ := pr
    rw [masterConvergence_unfold s g1 conv h1] at h
    cases h2 : refreshGraph g1 with
    | none =>
      rw [h2] at h
      exact Option.noConfusion h
    | some g2 =>
      rw [h2] at h
      have h' : (if conv > s.threshold then
          some ({ s with graph := g2, phase := Phase.Wait, data := [] },
            ([] : Graph))
        else some (freshWaitState, normalizeGraph g2)) = some (s', em) := h
      have h2' : refreshAll g1 g1 = some g2 := h2
      by_cases hc : conv > s.threshold
      · rw [if_pos hc] at h'
        simp only [Option.some.injEq, Prod.mk.injEq] at h'
        rw [← h'.1]
        intro p hp q hq
        obtain ⟨node, hn, hval⟩ :=
          refreshAll_spec g1 g1 g2 h2' p hp q hq
        have hrank := refreshAll_lookup_rank g1 g1 g2 h2' q.1
        rw [hrank, hn, hval]
        rfl
      · rw [if_neg hc] at h'
        simp only [Option.some.injEq, Prod.mk.injEq] at h'
        rw [← h'.1]
        intro p hp
        simp [freshWaitState] at hp

/-- Witness for C7 on the iterating fixture: the replica of source 2
inside vertex 1 equals the committed rank 1/4 of vertex 2. -/
theorem inLinks_replica_invariant_witness :
    masterConvergence convIterState = some (iterState', []) ∧
    (mapLookup iterState'.graph 2).map GraphNode.rank = some (1/4 : ℚ) := by
  refine ⟨by with_unfolding_all decide, ?_⟩
  have h := inLinks_replica_invariant convIterState iterState' []
    (by with_unfolding_all decide)
  have h2 := h (1, ⟨3/4, 1/2, [(2, 1/4)]⟩) (by with_unfolding_all decide)
    (2, 1/4) (by with_unfolding_all decide)
  exact h2

/-- C1: on a Convergence tick the master computes
Δ = Σ |newRank(id) − oldRank(id)| over the SafeMap entries, commits each
new rank to the graph; when Δ > threshold the phase becomes Wait with
the (committed, replica-refreshed) graph, c and threshold retained;
otherwise every rank is divided by the rank sum (so the printed ranks
sum to 1) and the State is reset to a fresh Wait with empty graph,
jobs = 0 and responses = 0. -/
theorem masterConvergence_delta_commit_normalize (s : MasterState)
    (_hg : s.graph ≠ [])
    (hnd : (s.data.map Prod.fst).Nodup)
    (hdom : ∀ p ∈ s.data, (mapLookup s.graph p.1).isSome)
    (hlinks : ∀ p ∈ commitAll s.graph s.data, ∀ q ∈ p.2.inLinks,
      (mapLookup (commitAll s.graph s.data) q.1).isSome)
    (hsum : ((commitAll s.graph s.data).map (fun p => p.2.rank)).sum ≠ 0) :
    ∃ gR s' em,
      refreshGraph (commitAll s.graph s.data) = some gR ∧
      masterConvergence s = some (s', em) ∧
      (∀ p ∈ s.data, (mapLookup gR p.1).map GraphNode.rank = some p.2) ∧
      (convDelta s.graph s.data > s.threshold →
        s'.graph = gR ∧ s'.c = s.c ∧ s'.threshold = s.threshold ∧
        s'.phase = Phase.Wait ∧ em = []) ∧
      (¬ convDelta s.graph s.data > s.threshold →
        em = normalizeGraph gR ∧ (em.map (fun p => p.2.rank)).sum = 1 ∧
        s' = freshWaitState) := by
  have hcommit := commitLoop_eq s.data s.graph 0 hnd hdom
  rw [zero_add] at hcommit
  have hrefSome : (refreshGraph (commitAll s.graph s.data)).isSome :=
    refreshAll_isSome (commitAll s.graph s.data) (commitAll s.graph s.data)
      hlinks
  obtain ⟨gR, hgR⟩ := Option.isSome_iff_exists.1 hrefSome
  have hgR' : refreshAll (commitAll s.graph s.data) (commitAll s.graph s.data) =
      some gR := hgR
  have hunf := masterConvergence_unfold s (commitAll s.graph s.data)
    (convDelta s.graph s.data) hcommit
  rw [hgR] at hunf
  have hcom : ∀ p ∈ s.data, (mapLookup gR p.1).map GraphNode.rank = some p.2 := by
    intro p hp
    have h1 := refreshAll_lookup_rank (commitAll s.graph s.data)
      (commitAll s.graph s.data) gR hgR' p.1
    rw [h1, mapLookup_commitAll_mem s.data s.graph hnd p hp]
    obtain ⟨node, hn⟩ := Option.isSome_iff_exists.1 (hdom p hp)
    rw [hn]
    rfl
  by_cases hc : convDelta s.graph s.data > s.threshold
  · refine ⟨gR,
      { s with graph := gR, phase := Phase.Wait, data := [] }, [],
      hgR, ?_, hcom, ?_, ?_⟩
    · rw [hunf]
      exact if_pos hc
    · intro _
      exact ⟨rfl, rfl, rfl, rfl, rfl⟩
    · intro hcontra
      exact absurd hc hcontra
  · have hsumR : (gR.map (fun p => p.2.rank)).sum ≠ 0 := by
      rw [refreshAll_rank_list (commitAll s.graph s.data)
        (commitAll s.graph s.data) gR hgR']
      exact hsum
    refine ⟨gR, freshWaitState, normalizeGraph gR, hgR, ?_, hcom, ?_, ?_⟩
    · rw [hunf]
      exact if_neg hc
    · intro hcontra
      exact absurd hcontra hc
    · intro _
      exact ⟨rfl, normalizeGraph_sum gR hsumR, rfl⟩

/-- Witness for C1 on the terminating fixture `convTermState2`: the
printed normalized ranks are 2/3 and 1/3 and sum to 1, and the state is
reset to the fresh Wait. -/
theorem masterConvergence_delta_commit_normalize_witness :
    convTermState2.graph ≠ [] ∧
    (convTermState2.data.map Prod.fst).Nodup ∧
    masterConvergence convTermState2 = some (freshWaitState, emTermGraph2) ∧
    (emTermGraph2.map (fun p => p.2.rank)).sum = 1 := by
  refine ⟨by decide, by decide, by with_unfolding_all decide, ?_⟩
  obtain ⟨gR, s', em, hgR, hM, hcom, hiter, hterm⟩ :=
    masterConvergence_delta_commit_normalize convTermState2
      (by decide) (by decide) (by with_unfolding_all decide)
      (by with_unfolding_all decide) (by with_unfolding_all decide)
  have hMW : masterConvergence convTermState2 =
      some (freshWaitState, emTermGraph2) := by
    with_unfolding_all decide
  rw [hM] at hMW
  simp only [Option.some.injEq, Prod.mk.injEq] at hMW
  obtain ⟨hs', hem⟩ := hMW
  obtain ⟨_, hsum1, _⟩ := hterm (by with_unfolding_all decide)
  rw [← hem]
  exact hsum1
